import Mathlib

/-!
# Verification of the `aug15` speech-analysis core

Shallow embedding of `src/python/utils/data_prep.py` and
`src/python/utils/text_analysis.py` (an analytics pipeline over a corpus of
Indian Independence Day speeches): pandas DataFrames become Lean lists of
typed row structures, and each pipeline stage becomes a Lean function over
those lists.  Python code that can raise an exception is modelled as an
`Option`-returning function (`none` = the call raises).

Ordering conventions: pandas `groupby`/`drop_duplicates`/`pivot_table`
return group keys in a particular order (sorted, resp. first occurrence).
Every property proved below is insensitive to that order (permutation,
membership and sortedness statements only), so group keys are modelled with
`List.dedup`, whose occurrence order may differ from pandas'.
-/

namespace Aug15

/-! ## Characters and tokenization primitives

`tokenize_text` uses `re.findall(r"\b\w+\b", text.lower())`.  We model the
ASCII fragment of Python's `\w` class and `str.lower`; the corpus and every
claim under test involve ASCII text only.
-/

/-- A word character of Python's regex class `\w` (ASCII range):
alphanumeric or underscore. -/
def isWordChar (c : Char) : Bool :=
  c.isAlphanum || c = '_'

/-- ASCII upper-case letter (codepoints 65–90), as tested by `str.lower`. -/
def IsAsciiUpper (c : Char) : Prop :=
  65 ≤ c.toNat ∧ c.toNat ≤ 90

instance (c : Char) : Decidable (IsAsciiUpper c) :=
  inferInstanceAs (Decidable (65 ≤ c.toNat ∧ c.toNat ≤ 90))

/-- Models Python `str.lower` on one character (ASCII range): shift an
upper-case letter down by 32, leave everything else alone. -/
def pyLower (c : Char) : Char :=
  if IsAsciiUpper c then Char.ofNat (c.toNat + 32) else c

/-- Models Python `str.lower` on a string. -/
def pyLowerStr (s : String) : String :=
  ⟨s.toList.map pyLower⟩

theorem pyLower_eq_self {c : Char} (h : ¬ IsAsciiUpper c) : pyLower c = c :=
  if_neg h

theorem toNat_ofNat_of_valid {n : Nat} (h : n < 55296) :
    (Char.ofNat n).toNat = n := by
  rw [Char.ofNat, dif_pos (Or.inl h)]
  rfl

theorem toNat_pyLower_of_upper {c : Char} (h : IsAsciiUpper c) :
    (pyLower c).toNat = c.toNat + 32 := by
  obtain ⟨h1, h2⟩ := h
  rw [pyLower, if_pos ⟨h1, h2⟩]
  exact toNat_ofNat_of_valid (by omega)

theorem not_isAsciiUpper_pyLower (c : Char) : ¬ IsAsciiUpper (pyLower c) := by
  by_cases h : IsAsciiUpper c
  · have := toNat_pyLower_of_upper h
    rcases h with ⟨h1, h2⟩
    intro hcon
    rcases hcon with ⟨h3, h4⟩
    omega
  · rw [pyLower_eq_self h]
    exact h

theorem pyLower_pyLower (c : Char) : pyLower (pyLower c) = pyLower c :=
  pyLower_eq_self (not_isAsciiUpper_pyLower c)

/-- Maximal-run word extraction, the semantics of
`re.findall(r"\b\w+\b", s)`: scan the character list, accumulating the
current run of word characters (reversed) in `acc`; a non-word character or
the end of input closes the current run.  Each emitted run is a maximal
block of consecutive word characters. -/
def wordsAux (acc : List Char) : List Char → List (List Char)
  | [] => if acc = [] then [] else [acc.reverse]
  | c :: cs =>
    if isWordChar c then wordsAux (c :: acc) cs
    else if acc = [] then wordsAux [] cs else acc.reverse :: wordsAux [] cs

/-- All maximal runs of word characters of `s`,
i.e. `re.findall(r"\b\w+\b", s)`. -/
def pyWords (s : List Char) : List (List Char) :=
  wordsAux [] s

theorem ne_nil_of_mem_wordsAux {acc : List Char} {l : List Char}
    {w : List Char} (hw : w ∈ wordsAux acc l) : w ≠ [] := by
  induction l generalizing acc with
  | nil =>
    by_cases h : acc = []
    · simp [wordsAux, h] at hw
    · simp only [wordsAux, if_neg h, List.mem_singleton] at hw
      subst hw
      simpa using h
  | cons c cs ih =>
    by_cases hc : isWordChar c
    · rw [wordsAux, if_pos hc] at hw
      exact ih hw
    · rw [wordsAux, if_neg hc] at hw
      by_cases h : acc = []
      · rw [if_pos h] at hw
        exact ih hw
      · rw [if_neg h] at hw
        rcases List.mem_cons.mp hw with h1 | h1
        · subst h1
          simpa using h
        · exact ih h1

/-- Every character of every extracted word was pushed from the accumulator
or from the input list. -/
theorem mem_of_mem_wordsAux {acc l w : List Char} {c : Char}
    (hw : w ∈ wordsAux acc l) (hc : c ∈ w) : c ∈ acc ∨ c ∈ l := by
  induction l generalizing acc with
  | nil =>
    by_cases h : acc = []
    · simp [wordsAux, h] at hw
    · simp only [wordsAux, if_neg h, List.mem_singleton] at hw
      subst hw
      exact Or.inl (List.mem_reverse.mp hc)
  | cons x xs ih =>
    by_cases hx : isWordChar x
    · rw [wordsAux, if_pos hx] at hw
      rcases ih hw with h1 | h1
      · rcases List.mem_cons.mp h1 with h2 | h2
        · exact Or.inr (h2 ▸ List.mem_cons_self x xs)
        · exact Or.inl h2
      · exact Or.inr (List.mem_cons_of_mem x h1)
    · rw [wordsAux, if_neg hx] at hw
      by_cases h : acc = []
      · rw [if_pos h] at hw
        rcases ih hw with h1 | h1
        · simp at h1
        · exact Or.inr (List.mem_cons_of_mem x h1)
      · rw [if_neg h] at hw
        rcases List.mem_cons.mp hw with h1 | h1
        · subst h1
          exact Or.inl (List.mem_reverse.mp hc)
        · rcases ih h1 with h2 | h2
          · simp at h2
          · exact Or.inr (List.mem_cons_of_mem x h2)

/-- Every character of every extracted word is a word character, provided
the accumulator holds only word characters. -/
theorem wordChar_of_mem_wordsAux {acc l w : List Char} {c : Char}
    (hacc : ∀ a ∈ acc, isWordChar a = true)
    (hw : w ∈ wordsAux acc l) (hc : c ∈ w) : isWordChar c = true := by
  induction l generalizing acc with
  | nil =>
    by_cases h : acc = []
    · simp [wordsAux, h] at hw
    · simp only [wordsAux, if_neg h, List.mem_singleton] at hw
      subst hw
      exact hacc c (List.mem_reverse.mp hc)
  | cons x xs ih =>
    by_cases hx : isWordChar x
    · rw [wordsAux, if_pos hx] at hw
      refine ih ?_ hw
      intro a ha
      rcases List.mem_cons.mp ha with h1 | h1
      · exact h1 ▸ hx
      · exact hacc a h1
    · rw [wordsAux, if_neg hx] at hw
      by_cases h : acc = []
      · rw [if_pos h] at hw
        exact ih (by simp) hw
      · rw [if_neg h] at hw
        rcases List.mem_cons.mp hw with h1 | h1
        · subst h1
          exact hacc c (List.mem_reverse.mp hc)
        · exact ih (by simp) h1

/-! ## Data model

Typed row structures for the tables flowing through the pipeline
(spec §3, §6).  `text` can be missing (`NaN` in the CSV), hence
`Option String`. -/

/-- A row of the full corpus CSV:
columns `year, pm, party, title, footnote, source, url, text`. -/
structure CorpusRow where
  year : Int
  pm : String
  party : String
  title : String
  footnote : String
  source : String
  url : String
  text : Option String
deriving DecidableEq

/-- A row of the filtered corpus: exactly the columns
`[year, pm, party, text]` that `filter_corpus` projects to. -/
structure SpeechRow where
  year : Int
  pm : String
  party : String
  text : Option String
deriving DecidableEq

/-- A row of a tokenized table: one word token with its speech metadata. -/
structure TokenRow where
  year : Int
  pm : String
  party : String
  word : String
deriving DecidableEq

/-- Sentiment polarity attached by `calculate_sentiment_words`. -/
inductive Polarity where
  | positive
  | negative
deriving DecidableEq

/-- A sentiment-labeled token row. -/
structure SentRow where
  year : Int
  pm : String
  party : String
  word : String
  sentiment : Polarity
deriving DecidableEq

/-- A (year, pm, party) grouping key. -/
structure GroupKey where
  year : Int
  pm : String
  party : String
deriving DecidableEq

/-- An output row of `calculate_net_sentiment`; the net value is stored in
the column the source names `sentiment`. -/
structure NetRow where
  year : Int
  pm : String
  party : String
  positive : Nat
  negative : Nat
  sentiment : Int
deriving DecidableEq

/-- An output row of `count_specific_word`. -/
structure CountRow where
  year : Int
  pm : String
  party : String
  n : Nat
deriving DecidableEq

def tokKey (r : TokenRow) : GroupKey := ⟨r.year, r.pm, r.party⟩

def sentKey (r : SentRow) : GroupKey := ⟨r.year, r.pm, r.party⟩

def ckey (r : CountRow) : GroupKey := ⟨r.year, r.pm, r.party⟩

/-! ## Corpus filter (`data_prep.py`) -/

/-- Models `filter_corpus`: keep the rows whose year lies in the inclusive
range and whose pm resp. party is in the given list, then project to the
columns `[year, pm, party, text]`. -/
def filter_corpus (df : List CorpusRow) (year_range : Int × Int)
    (pms : List String) (parties : List String) : List SpeechRow :=
  (df.filter fun r =>
      decide (year_range.1 ≤ r.year) && decide (r.year ≤ year_range.2) &&
      decide (r.pm ∈ pms) && decide (r.party ∈ parties)).map
    fun r => ⟨r.year, r.pm, r.party, r.text⟩

/-- Models `get_current_n`: report how many speeches are included.  The
source's default for `total_speeches` is 77. -/
def get_current_n (df : List SpeechRow) (total_speeches : Nat) : String :=
  if df.length = total_speeches then
    toString total_speeches ++ " speeches included."
  else
    toString df.length ++ " of " ++ toString total_speeches ++
      " speeches included."

/-! ## Tokenizer (`text_analysis.py`) -/

/-- Models `tokenize_text`: for each row, skip it if `text` is missing,
otherwise lowercase the text and emit one token row per maximal run of word
characters (`re.findall(r"\b\w+\b", text.lower())`). -/
def tokenize_text (df : List SpeechRow) : List TokenRow :=
  df.flatMap fun row =>
    match row.text with
    | none => []
    | some t =>
      (pyWords ((t.toList).map pyLower)).map fun w =>
        ⟨row.year, row.pm, row.party, ⟨w⟩⟩

/-- Models `remove_stopwords`: drop the rows whose word is in the stopword
list.  The NLTK English stopword list is an external resource loaded at run
time, so it is a parameter here. -/
def remove_stopwords (stop_words : List String) (df_tidy : List TokenRow) :
    List TokenRow :=
  df_tidy.filter fun r => !(decide (r.word ∈ stop_words))

/-! ## Sentiment labeler -/

/-- Models `calculate_sentiment_words`: keep only the rows whose word is in
the positive or in the negative opinion lexicon, and label each kept row
`positive` if its word is in the positive lexicon (checked first), else
`negative`.  The NLTK opinion lexicons are external resources, so they are
parameters here. -/
def calculate_sentiment_words (positive_words negative_words : List String)
    (df_nonstop : List TokenRow) : List SentRow :=
  (df_nonstop.filter fun r =>
      decide (r.word ∈ positive_words) || decide (r.word ∈ negative_words)).map
    fun r =>
      ⟨r.year, r.pm, r.party, r.word,
        if r.word ∈ positive_words then .positive else .negative⟩

/-! ## Net sentiment aggregator

`calculate_net_sentiment` pivots the per-(year, pm, party, sentiment)
counts into `positive` and `negative` columns and then evaluates
`pivoted['positive'] - pivoted['negative']`.  `pivot_table` only creates a
column for a sentiment value that occurs in the data, so if either polarity
is absent from the whole input (in particular on a zero-row input) the
column subscript raises `KeyError`; that failure is modelled as `none`. -/

/-- Does the pivot of `df_bing` have both a `positive` and a `negative`
column, i.e. does each polarity occur in at least one row? -/
def netOk (df_bing : List SentRow) : Prop :=
  (∃ r ∈ df_bing, r.sentiment = Polarity.positive) ∧
  (∃ r ∈ df_bing, r.sentiment = Polarity.negative)

instance (df_bing : List SentRow) : Decidable (netOk df_bing) :=
  inferInstanceAs (Decidable (_ ∧ _))

/-- The net-sentiment table in the non-raising case: one row per distinct
(year, pm, party) key of the labeled tokens, with that group's positive and
negative token counts (`fill_value=0` for a polarity missing from the
group) and their difference. -/
def netRows (df_bing : List SentRow) : List NetRow :=
  (df_bing.map sentKey).dedup.map fun k =>
    let pos := df_bing.countP fun r =>
      decide (sentKey r = k) && decide (r.sentiment = Polarity.positive)
    let neg := df_bing.countP fun r =>
      decide (sentKey r = k) && decide (r.sentiment = Polarity.negative)
    ⟨k.year, k.pm, k.party, pos, neg, (pos : Int) - (neg : Int)⟩

/-- Models `calculate_net_sentiment`; `none` models the `KeyError` raised
when a polarity is absent from the whole input table. -/
def calculate_net_sentiment (df_bing : List SentRow) : Option (List NetRow) :=
  if netOk df_bing then some (netRows df_bing) else none

/-! ## Left join

`pd.merge(..., how='left')` semantics: one output row per matching
(left row, right row) pair, plus one output row per left row without a
match, combined with `none` (the `NaN` that `fillna` later replaces). -/

def leftJoin {α β γ : Type} (left : List α) (right : List β)
    (m : α → β → Bool) (comb : α → Option β → γ) : List γ :=
  left.flatMap fun a =>
    match right.filter (m a) with
    | [] => [comb a none]
    | bs => bs.map fun b => comb a (some b)

theorem find?_eq_head?_filter {α : Type} (p : α → Bool) (l : List α) :
    l.find? p = (l.filter p).head? := by
  induction l with
  | nil => rfl
  | cons x xs ih =>
    by_cases h : p x
    · rw [List.find?_cons_of_pos _ h, List.filter_cons_of_pos h]
      rfl
    · rw [List.find?_cons_of_neg _ (by simpa using h),
        List.filter_cons_of_neg (by simpa using h), ih]

/-- When the right table has at most one match per left row, a pandas left
join degenerates to a lookup with `find?`. -/
theorem leftJoin_eq_map {α β γ : Type} (left : List α) (right : List β)
    (m : α → β → Bool) (comb : α → Option β → γ)
    (h : ∀ a ∈ left, (right.filter (m a)).length ≤ 1) :
    leftJoin left right m comb =
      left.map fun a => comb a (right.find? (m a)) := by
  induction left with
  | nil => rfl
  | cons a as ih =>
    have ha := h a (List.mem_cons_self a as)
    rw [leftJoin, List.flatMap_cons]
    have htail : (leftJoin as right m comb) =
        as.map fun a => comb a (right.find? (m a)) :=
      ih fun x hx => h x (List.mem_cons_of_mem a hx)
    rw [leftJoin] at htail
    rw [htail, List.map_cons]
    rcases hfil : right.filter (m a) with _ | ⟨b, bs⟩
    · rw [find?_eq_head?_filter, hfil]
      rfl
    · have : bs = [] := by
        rw [hfil] at ha
        simp only [List.length_cons] at ha
        exact List.length_eq_zero.mp (by omega)
      subst this
      rw [find?_eq_head?_filter, hfil]
      rfl

/-- If the right table's keys are distinct and the predicate pins down the
key, at most one right row matches. -/
theorem length_filter_le_one_of_nodup {β γ : Type} [DecidableEq γ]
    (right : List β) (key : β → γ) (hk : (right.map key).Nodup)
    (p : β → Bool) (g : γ) (hp : ∀ b, p b = true → key b = g) :
    (right.filter p).length ≤ 1 := by
  induction right with
  | nil => simp
  | cons b bs ih =>
    rw [List.map_cons, List.nodup_cons] at hk
    by_cases h : p b
    · rw [List.filter_cons_of_pos h]
      have : bs.filter p = [] := by
        rw [List.filter_eq_nil_iff]
        intro x hx hpx
        apply hk.1
        rw [hp b h, ← hp x hpx]
        exact List.mem_map_of_mem key hx
      rw [this]
      simp
    · rw [List.filter_cons_of_neg (by simpa using h)]
      exact ih hk.2

/-! ## Specific word counter

`count_specific_word` lowercases the target, counts its occurrences
grouped by (year, pm, party), left-joins those counts onto the distinct
(year, pm, party) combinations of the input with years 1962 and 1995
excluded, fills missing counts with 0, and sorts by year ascending. -/

/-- The `word_df` table: the rows matching the (already lowercased)
target word. -/
def wordDf (df_tidy : List TokenRow) (word_lower : String) : List TokenRow :=
  df_tidy.filter fun r => decide (r.word = word_lower)

/-- The `counts` table: the groupby-size of `word_df` over
(year, pm, party). -/
def wordCounts (df_tidy : List TokenRow) (word_lower : String) :
    List CountRow :=
  ((wordDf df_tidy word_lower).map tokKey).dedup.map fun k =>
    ⟨k.year, k.pm, k.party,
      (wordDf df_tidy word_lower).countP fun r => decide (tokKey r = k)⟩

/-- The `all_years` table: distinct (year, pm, party) combinations of the
input, with years 1962 and 1995 excluded. -/
def allKeys (df_tidy : List TokenRow) : List GroupKey :=
  ((df_tidy.filter fun r =>
      !(decide (r.year = 1962)) && !(decide (r.year = 1995))).map tokKey).dedup

/-- The ascending-year order used by `.sort_values('year')`. -/
def yearLe (a b : CountRow) : Prop := a.year ≤ b.year

instance : DecidableRel yearLe := fun a b =>
  inferInstanceAs (Decidable (a.year ≤ b.year))

instance : IsTotal CountRow yearLe := ⟨fun a b => Int.le_total a.year b.year⟩

instance : IsTrans CountRow yearLe := ⟨fun _ _ _ h1 h2 => le_trans h1 h2⟩

/-- Models `count_specific_word`.  The final `sort_values('year')` is
modelled by an insertion sort; the properties proved below (sortedness and
row multiset) do not depend on which year-sorting permutation pandas
picks. -/
def count_specific_word (df_tidy : List TokenRow) (word : String) :
    List CountRow :=
  let word_lower := pyLowerStr word
  List.insertionSort yearLe <|
    leftJoin (allKeys df_tidy) (wordCounts df_tidy word_lower)
      (fun k c => decide (ckey c = k))
      (fun k oc =>
        ⟨k.year, k.pm, k.party, match oc with | some c => c.n | none => 0⟩)

/-! ## TF-IDF calculator

`calculate_tf_idf` builds one pseudo-document per year
(`' '.join` of that year's words), feeds the documents to scikit-learn's
`TfidfVectorizer()` with its default settings, keeps the strictly positive
scores as a (year, word, tf_idf) table, left-joins it onto the
per-(year, pm, party, word) token counts, fills missing scores with 0 and
sorts by score descending.

`TfidfVectorizer()` defaults modelled here: the analyzer lowercases each
document and extracts tokens with `token_pattern=r"(?u)\b\w\w+\b"`
(maximal word-character runs of length ≥ 2 — single characters are NOT
tokens); `smooth_idf=True` gives `idf(w) = ln((1+n)/(1+df(w))) + 1`;
`sublinear_tf=False` keeps the raw in-document count as the term
frequency; `norm='l2'` divides each document's score vector by its
Euclidean norm (an all-zero row is left as zeros, matching Lean's
`x / 0 = 0`).  `fit_transform` raises `ValueError: empty vocabulary` when
no document yields any token — in particular on an empty document list —
which is modelled as `none`. -/

/-- The distinct years of the tokenized table, one pseudo-document each
(`df_tidy.groupby('year')`). -/
def years (df : List TokenRow) : List Int :=
  (df.map (·.year)).dedup

/-- The word list of year `y` (as character lists). -/
def yearWordLists (df : List TokenRow) (y : Int) : List (List Char) :=
  (df.filter fun r => decide (r.year = y)).map fun r => r.word.toList

/-- `' '.join` on character lists. -/
def joinChars : List (List Char) → List Char
  | [] => []
  | [w] => w
  | w :: ws => w ++ ' ' :: joinChars ws

/-- The pseudo-document of year `y`: that year's words joined by single
spaces. -/
def docChars (df : List TokenRow) (y : Int) : List Char :=
  joinChars (yearWordLists df y)

/-- The vectorizer's token stream for year `y`'s document: lowercase, then
maximal word-character runs of length at least 2
(`token_pattern=r"(?u)\b\w\w+\b"`). -/
def docTokens (df : List TokenRow) (y : Int) : List (List Char) :=
  (pyWords ((docChars df y).map pyLower)).filter fun w => decide (2 ≤ w.length)

/-- The fitted vocabulary: every token of every document. -/
def vocab (df : List TokenRow) : List (List Char) :=
  ((years df).flatMap fun y => docTokens df y).dedup

/-- Raw term frequency of `w` in year `y`'s document. -/
def tf (df : List TokenRow) (y : Int) (w : List Char) : Nat :=
  (docTokens df y).count w

/-- Document frequency: the number of year-documents containing `w`. -/
def docFreq (df : List TokenRow) (w : List Char) : Nat :=
  (years df).countP fun y => decide (w ∈ docTokens df y)

/-- The number of documents. -/
def nDocs (df : List TokenRow) : Nat :=
  (years df).length

/-- Smoothed inverse document frequency:
`idf(w) = ln((1 + n_docs)/(1 + df(w))) + 1`. -/
noncomputable def idf (df : List TokenRow) (w : List Char) : ℝ :=
  Real.log ((1 + (nDocs df : ℝ)) / (1 + (docFreq df w : ℝ))) + 1

/-- The unnormalized matrix entry `tf * idf` for (year, word). -/
noncomputable def rawWeight (df : List TokenRow) (y : Int) (w : List Char) : ℝ :=
  (tf df y w : ℝ) * idf df w

/-- The Euclidean norm of year `y`'s unnormalized score row. -/
noncomputable def docNorm (df : List TokenRow) (y : Int) : ℝ :=
  Real.sqrt (((vocab df).map fun w => rawWeight df y w ^ 2).sum)

/-- The `l2`-normalized TF-IDF score of word `w` in year `y`'s document. -/
noncomputable def tfidfScore (df : List TokenRow) (y : Int) (w : List Char) : ℝ :=
  rawWeight df y w / docNorm df y

/-- A row of the intermediate `tfidf_df` table. -/
structure ScoreRow where
  year : Int
  word : List Char
  tf_idf : ℝ

/-- The `tfidf_df` table: for each year (document) and each vocabulary
word, a row with the score — but only where the score is strictly
positive (`if score > 0` in the source). -/
noncomputable def tfidfScores (df : List TokenRow) : List ScoreRow :=
  (years df).flatMap fun y =>
    (vocab df).filterMap fun w =>
      @ite _ (0 < tfidfScore df y w) (Classical.propDecidable _)
        (some ⟨y, w, tfidfScore df y w⟩) none

/-- A row of the `word_counts` table
(`groupby(['year','pm','party','word']).size()`). -/
structure WordCountRow where
  year : Int
  pm : String
  party : String
  word : String
  n : Nat
deriving DecidableEq

/-- The `word_counts` table: one row per distinct (year, pm, party, word)
combination — i.e. per distinct `TokenRow` — with its multiplicity. -/
def word_counts (df : List TokenRow) : List WordCountRow :=
  df.dedup.map fun r => ⟨r.year, r.pm, r.party, r.word, df.count r⟩

/-- A row of the final TF-IDF output table. -/
structure TfidfRow where
  year : Int
  pm : String
  party : String
  word : String
  n : Nat
  tf_idf : ℝ

/-- The merge of `word_counts` with `tfidf_df` on (year, word), left-join
semantics, with missing scores filled by 0 (`fillna(0)`). -/
noncomputable def tfidfMerged (df : List TokenRow) : List TfidfRow :=
  leftJoin (word_counts df) (tfidfScores df)
    (fun c s => decide (s.year = c.year ∧ s.word = c.word.toList))
    (fun c os => ⟨c.year, c.pm, c.party, c.word, c.n,
      match os with | some s => s.tf_idf | none => 0⟩)

/-- The descending-score order used by
`.sort_values('tf_idf', ascending=False)`. -/
def tfidfGe (a b : TfidfRow) : Prop := b.tf_idf ≤ a.tf_idf

noncomputable instance : DecidableRel tfidfGe := fun _ _ =>
  Classical.propDecidable _

instance : IsTotal TfidfRow tfidfGe := ⟨fun a b => le_total b.tf_idf a.tf_idf⟩

instance : IsTrans TfidfRow tfidfGe := ⟨fun _ _ _ h1 h2 => le_trans h2 h1⟩

/-- The value `calculate_tf_idf` returns when it does not raise: the merged
table sorted by score descending.  The properties proved below (sortedness
and row multiset) do not depend on which descending-sort permutation pandas
picks. -/
noncomputable def tfidfResult (df : List TokenRow) : List TfidfRow :=
  List.insertionSort tfidfGe (tfidfMerged df)

/-- `fit_transform` succeeds exactly when the fitted vocabulary is
nonempty. -/
def tfidfOk (df : List TokenRow) : Prop := vocab df ≠ []

instance (df : List TokenRow) : Decidable (tfidfOk df) :=
  inferInstanceAs (Decidable (_ ≠ _))

/-- Models `calculate_tf_idf`; `none` models the
`ValueError: empty vocabulary` raised by the vectorizer, which happens in
particular on a zero-row input. -/
noncomputable def calculate_tf_idf (df : List TokenRow) :
    Option (List TfidfRow) :=
  if tfidfOk df then some (tfidfResult df) else none

/-! ## Claim C2: corpus filtering -/

/-- C2: `filter_corpus` returns exactly the rows whose year lies within the
inclusive bounds, whose pm is in the leader list and whose party is in the
party list, projected to exactly the columns `[year, pm, party, text]`
(enforced by the `SpeechRow` result type, for any row count including
zero); an empty leader or party list yields an empty result, not an
error. -/
theorem filter_corpus_spec (df : List CorpusRow) (year_range : Int × Int)
    (pms parties : List String) :
    (∀ s : SpeechRow, s ∈ filter_corpus df year_range pms parties ↔
      ∃ r ∈ df, (year_range.1 ≤ r.year ∧ r.year ≤ year_range.2 ∧
        r.pm ∈ pms ∧ r.party ∈ parties) ∧
        s = ⟨r.year, r.pm, r.party, r.text⟩) ∧
    (filter_corpus df year_range pms parties).length =
      df.countP (fun r =>
        decide (year_range.1 ≤ r.year) && decide (r.year ≤ year_range.2) &&
        decide (r.pm ∈ pms) && decide (r.party ∈ parties)) ∧
    (pms = [] → filter_corpus df year_range pms parties = []) ∧
    (parties = [] → filter_corpus df year_range pms parties = []) := by
  refine ⟨?_, ?_, ?_, ?_⟩
  · intro s
    simp only [filter_corpus, List.mem_map, List.mem_filter,
      Bool.and_eq_true, decide_eq_true_eq]
    constructor
    · rintro ⟨r, ⟨hr, ⟨⟨h1, h2⟩, h3⟩, h4⟩, h5⟩
      exact ⟨r, hr, ⟨h1, h2, h3, h4⟩, h5.symm⟩
    · rintro ⟨r, hr, ⟨h1, h2, h3, h4⟩, h5⟩
      exact ⟨r, ⟨hr, ⟨⟨h1, h2⟩, h3⟩, h4⟩, h5.symm⟩
  · rw [filter_corpus, List.length_map, List.countP_eq_length_filter]
  · intro h
    subst h
    rw [filter_corpus, List.filter_eq_nil_iff.mpr (by simp)]
    rfl
  · intro h
    subst h
    rw [filter_corpus, List.filter_eq_nil_iff.mpr (by simp)]
    rfl

/-- Witness for C2 at a concrete corpus: an empty leader list and an empty
party list each give an empty result. -/
theorem filter_corpus_spec_witness :
    filter_corpus [⟨1947, "Nehru", "INC", "t", "f", "s", "u", some "sp"⟩]
      (1947, 1950) [] ["INC"] = [] ∧
    filter_corpus [⟨1947, "Nehru", "INC", "t", "f", "s", "u", some "sp"⟩]
      (1947, 1950) ["Nehru"] [] = [] :=
  ⟨(filter_corpus_spec [⟨1947, "Nehru", "INC", "t", "f", "s", "u", some "sp"⟩]
      (1947, 1950) [] ["INC"]).2.2.1 rfl,
   (filter_corpus_spec [⟨1947, "Nehru", "INC", "t", "f", "s", "u", some "sp"⟩]
      (1947, 1950) ["Nehru"] []).2.2.2 rfl⟩

/-! ## Claim C8: inclusion-count reporting -/

/-- C8: `get_current_n` returns `"{n} speeches included."` when the
filtered row count equals the total and `"{n} of {total} speeches
included."` otherwise; in particular, with total 77 the counts 77, 53 and
0 give the three expected strings. -/
theorem get_current_n_spec :
    (∀ (df : List SpeechRow) (total : Nat), df.length = total →
      get_current_n df total = toString total ++ " speeches included.") ∧
    (∀ (df : List SpeechRow) (total : Nat), df.length ≠ total →
      get_current_n df total =
        toString df.length ++ " of " ++ toString total ++
          " speeches included.") ∧
    get_current_n (List.replicate 77 ⟨1947, "Nehru", "INC", none⟩) 77 =
      "77 speeches included." ∧
    get_current_n (List.replicate 53 ⟨1947, "Nehru", "INC", none⟩) 77 =
      "53 of 77 speeches included." ∧
    get_current_n ([] : List SpeechRow) 77 = "0 of 77 speeches included." :=
  ⟨fun _ _ h => by rw [get_current_n, if_pos h],
   fun _ _ h => by rw [get_current_n, if_neg h],
   by decide, by decide, by decide⟩

/-- Witness for C8: the general branch rules applied at concrete tables. -/
theorem get_current_n_spec_witness :
    get_current_n ([] : List SpeechRow) 0 = toString 0 ++ " speeches included." ∧
    get_current_n ([] : List SpeechRow) 77 =
      toString ([] : List SpeechRow).length ++ " of " ++ toString 77 ++
        " speeches included." :=
  ⟨get_current_n_spec.1 [] 0 rfl,
   get_current_n_spec.2.1 [] 77 (by decide)⟩

/-! ## Claim C5: behaviour of every pipeline stage on a zero-row input -/

/-- C5: on a zero-row input, `tokenize_text`, `remove_stopwords`,
`calculate_sentiment_words` and `count_specific_word` return a zero-row
table, but `calculate_tf_idf` raises (`ValueError: empty vocabulary` from
the vectorizer, modelled as `none`) and so does `calculate_net_sentiment`
(`KeyError: 'positive'` at the pivot-column subscript, modelled as
`none`) — contradicting the spec's requirement that every core stage
accept zero-row input and return zero-row output. -/
theorem pipeline_empty_input (stop_words positive_words negative_words :
    List String) (w : String) :
    tokenize_text [] = [] ∧
    remove_stopwords stop_words [] = [] ∧
    calculate_sentiment_words positive_words negative_words [] = [] ∧
    count_specific_word [] w = [] ∧
    calculate_tf_idf [] = none ∧
    calculate_net_sentiment [] = none := by
  refine ⟨rfl, rfl, rfl, rfl, ?_, by decide⟩
  rw [calculate_tf_idf, if_neg (fun h => h rfl)]

/-! ## Claim C6: tokenization -/

/-- C6: `tokenize_text` lowercases each row's text and emits one row per
maximal run of word characters; `"Hello, world!"` yields exactly the
tokens `hello`, `world`; a row with missing text contributes zero tokens
without erroring; and every emitted token is nonempty, contains only word
characters (so no punctuation and no whitespace) and contains no
upper-case character. -/
theorem tokenize_text_spec :
    (tokenize_text [⟨1947, "Nehru", "INC", some "Hello, world!"⟩] =
      [⟨1947, "Nehru", "INC", "hello"⟩, ⟨1947, "Nehru", "INC", "world"⟩]) ∧
    (∀ (row : SpeechRow) (s : String), row.text = some s →
      tokenize_text [row] = (pyWords ((s.toList).map pyLower)).map
        fun w => ⟨row.year, row.pm, row.party, ⟨w⟩⟩) ∧
    (∀ (row : SpeechRow) (df : List SpeechRow), row.text = none →
      tokenize_text (row :: df) = tokenize_text df) ∧
    (∀ df : List SpeechRow, ∀ t ∈ tokenize_text df,
      t.word.toList ≠ [] ∧
      ∀ c ∈ t.word.toList, isWordChar c = true ∧ ¬ IsAsciiUpper c) := by
  refine ⟨by decide, ?_, ?_, ?_⟩
  · intro row s h
    simp only [tokenize_text, List.flatMap_cons, List.flatMap_nil,
      List.append_nil, h]
  · intro row df h
    simp only [tokenize_text, List.flatMap_cons, h, List.nil_append]
  · intro df t ht
    simp only [tokenize_text, List.mem_flatMap] at ht
    obtain ⟨row, _, hrow⟩ := ht
    rcases hrowt : row.text with _ | s
    · rw [hrowt] at hrow
      simp at hrow
    · rw [hrowt] at hrow
      simp only [List.mem_map] at hrow
      obtain ⟨w, hw, rfl⟩ := hrow
      refine ⟨ne_nil_of_mem_wordsAux hw, fun c hc => ?_⟩
      have hword := wordChar_of_mem_wordsAux (by simp) hw hc
      have hmem := mem_of_mem_wordsAux hw hc
      refine ⟨hword, ?_⟩
      rcases hmem with h1 | h1
      · simp at h1
      · obtain ⟨c₀, _, rfl⟩ := List.mem_map.mp h1
        exact not_isAsciiUpper_pyLower c₀

/-- Witness for C6: the missing-text rule and the single-row rule applied
at concrete rows. -/
theorem tokenize_text_spec_witness :
    tokenize_text [⟨1900, "x", "y", none⟩] = tokenize_text [] ∧
    tokenize_text [⟨1947, "Nehru", "INC", some "Jai Hind"⟩] =
      (pyWords (("Jai Hind".toList).map pyLower)).map
        fun w => ⟨1947, "Nehru", "INC", ⟨w⟩⟩ :=
  ⟨tokenize_text_spec.2.2.1 ⟨1900, "x", "y", none⟩ [] rfl,
   tokenize_text_spec.2.1 ⟨1947, "Nehru", "INC", some "Jai Hind"⟩ "Jai Hind" rfl⟩

/-! ## Claim C7: sentiment labeling -/

/-- C7: `calculate_sentiment_words` keeps exactly the rows whose word is
in the positive or in the negative lexicon, with the original columns
unchanged (projecting the output back to token rows gives precisely the
filtered input), and a kept row is labeled positive exactly when its word
is in the positive lexicon — including a word present in both lexicons —
and negative exactly when it is only in the negative lexicon. -/
theorem calculate_sentiment_words_spec (positive_words negative_words :
    List String) (df : List TokenRow) :
    ((calculate_sentiment_words positive_words negative_words df).map
        (fun s => (⟨s.year, s.pm, s.party, s.word⟩ : TokenRow)) =
      df.filter fun r =>
        decide (r.word ∈ positive_words) || decide (r.word ∈ negative_words)) ∧
    (∀ s ∈ calculate_sentiment_words positive_words negative_words df,
      (s.sentiment = Polarity.positive ↔ s.word ∈ positive_words) ∧
      (s.sentiment = Polarity.negative ↔
        (s.word ∉ positive_words ∧ s.word ∈ negative_words))) := by
  constructor
  · rw [calculate_sentiment_words, List.map_map]
    exact (List.map_congr_left fun r _ => rfl).trans (List.map_id _)
  · intro s hs
    simp only [calculate_sentiment_words, List.mem_map, List.mem_filter,
      Bool.or_eq_true, decide_eq_true_eq] at hs
    obtain ⟨r, ⟨_, hor⟩, rfl⟩ := hs
    dsimp only
    by_cases hp : r.word ∈ positive_words
    · rw [if_pos hp]
      exact ⟨⟨fun _ => hp, fun _ => rfl⟩,
        ⟨fun h => Polarity.noConfusion h, fun h => absurd hp h.1⟩⟩
    · rw [if_neg hp]
      have hn : r.word ∈ negative_words := hor.resolve_left hp
      exact ⟨⟨fun h => Polarity.noConfusion h, fun h => absurd h hp⟩,
        ⟨fun _ => ⟨hp, hn⟩, fun _ => rfl⟩⟩

/-- Witness for C7 at concrete lexicons and a concrete table, with the
word `good` present in both lexicons. -/
theorem calculate_sentiment_words_spec_witness :
    ((calculate_sentiment_words ["good"] ["good", "bad"]
        [⟨1947, "Nehru", "INC", "good"⟩]).map
        (fun s => (⟨s.year, s.pm, s.party, s.word⟩ : TokenRow)) =
      [⟨1947, "Nehru", "INC", "good"⟩].filter fun r =>
        decide (r.word ∈ ["good"]) || decide (r.word ∈ ["good", "bad"])) ∧
    (∀ s ∈ calculate_sentiment_words ["good"] ["good", "bad"]
        [⟨1947, "Nehru", "INC", "good"⟩],
      (s.sentiment = Polarity.positive ↔ s.word ∈ ["good"]) ∧
      (s.sentiment = Polarity.negative ↔
        (s.word ∉ ["good"] ∧ s.word ∈ ["good", "bad"]))) :=
  calculate_sentiment_words_spec ["good"] ["good", "bad"]
    [⟨1947, "Nehru", "INC", "good"⟩]

/-! ## Claims C4 and C10: net sentiment -/

/-- Counterexample to C4 as stated: on a sentiment-labeled table whose
rows are all positive (here a single positive token), the pivot has no
`negative` column and `calculate_net_sentiment` raises `KeyError` instead
of producing a row with `negative = 0`. -/
theorem calculate_net_sentiment_single_polarity :
    calculate_net_sentiment [⟨1947, "Nehru", "INC", "good",
      Polarity.positive⟩] = none := by
  decide

/-- C4 (amended): provided each polarity occurs in at least one row of the
input, `calculate_net_sentiment` succeeds and produces exactly one row per
distinct (year, pm, party) group of the labeled tokens, whose `positive`
and `negative` fields count that group's positive resp. negative tokens
(0 when the group has none of that polarity) and whose net value is
positive minus negative. -/
theorem calculate_net_sentiment_spec (df : List SentRow)
    (hpos : ∃ r ∈ df, r.sentiment = Polarity.positive)
    (hneg : ∃ r ∈ df, r.sentiment = Polarity.negative) :
    calculate_net_sentiment df = some (netRows df) ∧
    ((netRows df).map fun nr => (⟨nr.year, nr.pm, nr.party⟩ : GroupKey)) =
      (df.map sentKey).dedup ∧
    ((netRows df).map fun nr => (⟨nr.year, nr.pm, nr.party⟩ : GroupKey)).Nodup ∧
    (∀ nr ∈ netRows df,
      nr.positive = df.countP (fun r =>
        decide (sentKey r = ⟨nr.year, nr.pm, nr.party⟩) &&
        decide (r.sentiment = Polarity.positive)) ∧
      nr.negative = df.countP (fun r =>
        decide (sentKey r = ⟨nr.year, nr.pm, nr.party⟩) &&
        decide (r.sentiment = Polarity.negative)) ∧
      nr.sentiment = (nr.positive : Int) - (nr.negative : Int)) := by
  have hmap : ((netRows df).map fun nr =>
      (⟨nr.year, nr.pm, nr.party⟩ : GroupKey)) = (df.map sentKey).dedup := by
    rw [netRows, List.map_map]
    exact (List.map_congr_left fun k _ => rfl).trans (List.map_id _)
  refine ⟨by rw [calculate_net_sentiment, if_pos ⟨hpos, hneg⟩], hmap,
    hmap ▸ List.nodup_dedup _, ?_⟩
  intro nr hnr
  simp only [netRows, List.mem_map] at hnr
  obtain ⟨k, _, rfl⟩ := hnr
  exact ⟨rfl, rfl, rfl⟩

/-- Witness for C4 at a concrete two-token table containing one positive
and one negative token. -/
theorem calculate_net_sentiment_spec_witness :
    calculate_net_sentiment
        [⟨1947, "Nehru", "INC", "good", Polarity.positive⟩,
         ⟨1947, "Nehru", "INC", "bad", Polarity.negative⟩] =
      some (netRows
        [⟨1947, "Nehru", "INC", "good", Polarity.positive⟩,
         ⟨1947, "Nehru", "INC", "bad", Polarity.negative⟩]) ∧
    netRows
        [⟨1947, "Nehru", "INC", "good", Polarity.positive⟩,
         ⟨1947, "Nehru", "INC", "bad", Polarity.negative⟩] =
      [⟨1947, "Nehru", "INC", 1, 1, 0⟩] :=
  ⟨(calculate_net_sentiment_spec
      [⟨1947, "Nehru", "INC", "good", Polarity.positive⟩,
       ⟨1947, "Nehru", "INC", "bad", Polarity.negative⟩]
      (by decide) (by decide)).1,
   by decide⟩

/-- C10: `calculate_net_sentiment` emits rows only for (year, pm, party)
groups that have at least one labeled token in the input — there is no
zero-filling of absent groups. -/
theorem calculate_net_sentiment_no_absent_groups (df : List SentRow)
    (out : List NetRow) (hout : calculate_net_sentiment df = some out) :
    ∀ nr ∈ out, ∃ r ∈ df, sentKey r = ⟨nr.year, nr.pm, nr.party⟩ := by
  have hout' : out = netRows df := by
    rw [calculate_net_sentiment] at hout
    by_cases h : netOk df
    · rw [if_pos h] at hout
      exact (Option.some_injective _ hout).symm
    · rw [if_neg h] at hout
      cases hout
  subst hout'
  intro nr hnr
  simp only [netRows, List.mem_map] at hnr
  obtain ⟨k, hk, rfl⟩ := hnr
  obtain ⟨r, hr, hrk⟩ := List.mem_map.mp (List.mem_dedup.mp hk)
  exact ⟨r, hr, by rw [hrk]⟩

/-- Witness for C10 at a concrete labeled table and a concrete output
row. -/
theorem calculate_net_sentiment_no_absent_groups_witness :
    ∃ r ∈ ([⟨1948, "Nehru", "INC", "good", Polarity.positive⟩,
      ⟨1948, "Nehru", "INC", "bad", Polarity.negative⟩] : List SentRow),
      sentKey r = ⟨1948, "Nehru", "INC"⟩ :=
  calculate_net_sentiment_no_absent_groups
    [⟨1948, "Nehru", "INC", "good", Polarity.positive⟩,
     ⟨1948, "Nehru", "INC", "bad", Polarity.negative⟩]
    (netRows [⟨1948, "Nehru", "INC", "good", Polarity.positive⟩,
      ⟨1948, "Nehru", "INC", "bad", Polarity.negative⟩])
    (by decide) ⟨1948, "Nehru", "INC", 1, 1, 0⟩ (by decide)

/-! ## Claim C3: specific word counting -/

theorem pyLowerStr_idem (s : String) :
    pyLowerStr (pyLowerStr s) = pyLowerStr s := by
  show (⟨(s.toList.map pyLower).map pyLower⟩ : String) = ⟨s.toList.map pyLower⟩
  rw [List.map_map]
  exact congrArg String.mk (List.map_congr_left fun c _ => pyLower_pyLower c)

theorem wordCounts_map_ckey (df_tidy : List TokenRow) (wl : String) :
    (wordCounts df_tidy wl).map ckey =
      ((wordDf df_tidy wl).map tokKey).dedup := by
  rw [wordCounts, List.map_map]
  exact (List.map_congr_left fun k _ => rfl).trans (List.map_id _)

/-- The per-key lookup into the `counts` table equals the direct count of
target-word occurrences with that key. -/
theorem wordCounts_lookup (df_tidy : List TokenRow) (wl : String)
    (k : GroupKey) :
    (match (wordCounts df_tidy wl).find? (fun c => decide (ckey c = k)) with
      | some c => c.n
      | none => 0) =
      df_tidy.countP fun r =>
        decide (tokKey r = k) && decide (r.word = wl) := by
  rcases hfind : (wordCounts df_tidy wl).find? (fun c => decide (ckey c = k))
    with _ | c
  · rw [List.find?_eq_none] at hfind
    refine (List.countP_eq_zero.mpr ?_).symm
    intro r hr hp
    rw [Bool.and_eq_true, decide_eq_true_eq, decide_eq_true_eq] at hp
    have hrw : r ∈ wordDf df_tidy wl :=
      List.mem_filter.mpr ⟨hr, by rw [decide_eq_true_eq]; exact hp.2⟩
    have hk : k ∈ ((wordDf df_tidy wl).map tokKey).dedup :=
      List.mem_dedup.mpr (hp.1 ▸ List.mem_map_of_mem tokKey hrw)
    refine hfind ⟨k.year, k.pm, k.party,
        (wordDf df_tidy wl).countP fun r => decide (tokKey r = k)⟩
      (List.mem_map.mpr ⟨k, hk, rfl⟩) ?_
    rw [decide_eq_true_eq]
    rfl
  · have hc := List.mem_of_find?_eq_some hfind
    have hpc := List.find?_some hfind
    have hck : ckey c = k := of_decide_eq_true hpc
    simp only [wordCounts, List.mem_map] at hc
    obtain ⟨k', _, rfl⟩ := hc
    have hkk : k' = k := hck
    subst hkk
    show (wordDf df_tidy wl).countP (fun r => decide (tokKey r = k')) = _
    rw [wordDf, List.countP_filter]

/-- C3: `count_specific_word` lowercases the target (counting with the
lowercased target is the same as counting with the original), counts
tokens exactly equal to it, produces exactly one output row per
(year, pm, party) combination present in the input with years 1962 and
1995 excluded — zero-filled rows included, none omitted — and the output
is sorted ascending by year; counting `"FREEDOM"` against two 1947
`freedom` tokens yields the single row `n = 2`. -/
theorem count_specific_word_spec (df_tidy : List TokenRow) (word : String) :
    (count_specific_word df_tidy word).Perm
      ((allKeys df_tidy).map fun k =>
        ⟨k.year, k.pm, k.party, df_tidy.countP fun r =>
          decide (tokKey r = k) && decide (r.word = pyLowerStr word)⟩) ∧
    List.Sorted yearLe (count_specific_word df_tidy word) ∧
    (∀ c ∈ count_specific_word df_tidy word,
      c.n = df_tidy.countP fun r =>
        decide (tokKey r = ckey c) && decide (r.word = pyLowerStr word)) ∧
    (∀ g : GroupKey,
      ((count_specific_word df_tidy word).countP fun c => decide (ckey c = g)) =
        if g ∈ allKeys df_tidy then 1 else 0) ∧
    (∀ g : GroupKey, g ∈ allKeys df_tidy ↔
      (g.year ≠ 1962 ∧ g.year ≠ 1995 ∧ ∃ r ∈ df_tidy, tokKey r = g)) ∧
    count_specific_word df_tidy word =
      count_specific_word df_tidy (pyLowerStr word) ∧
    count_specific_word
        [⟨1947, "Nehru", "INC", "freedom"⟩, ⟨1947, "Nehru", "INC", "freedom"⟩]
        "FREEDOM" = [⟨1947, "Nehru", "INC", 2⟩] := by
  have hnodup : ((wordCounts df_tidy (pyLowerStr word)).map ckey).Nodup := by
    rw [wordCounts_map_ckey]
    exact List.nodup_dedup _
  have hle : ∀ k ∈ allKeys df_tidy,
      ((wordCounts df_tidy (pyLowerStr word)).filter
        (fun c => decide (ckey c = k))).length ≤ 1 :=
    fun k _ => length_filter_le_one_of_nodup _ ckey hnodup _ k
      (fun c hc => of_decide_eq_true hc)
  have hshape : count_specific_word df_tidy word =
      List.insertionSort yearLe ((allKeys df_tidy).map fun k =>
        (⟨k.year, k.pm, k.party, df_tidy.countP fun r =>
          decide (tokKey r = k) && decide (r.word = pyLowerStr word)⟩ :
            CountRow)) := by
    show List.insertionSort yearLe _ = _
    rw [leftJoin_eq_map _ _ _ _ hle]
    refine congrArg _ (List.map_congr_left fun k _ => ?_)
    have := wordCounts_lookup df_tidy (pyLowerStr word) k
    exact congrArg (fun n => (⟨k.year, k.pm, k.party, n⟩ : CountRow)) this
  have hperm : (count_specific_word df_tidy word).Perm
      ((allKeys df_tidy).map fun k =>
        (⟨k.year, k.pm, k.party, df_tidy.countP fun r =>
          decide (tokKey r = k) && decide (r.word = pyLowerStr word)⟩ :
            CountRow)) := by
    rw [hshape]
    exact List.perm_insertionSort yearLe _
  have hkeys : ∀ g : GroupKey, g ∈ allKeys df_tidy ↔
      (g.year ≠ 1962 ∧ g.year ≠ 1995 ∧ ∃ r ∈ df_tidy, tokKey r = g) := by
    intro g
    simp only [allKeys, List.mem_dedup, List.mem_map, List.mem_filter,
      Bool.and_eq_true, Bool.not_eq_eq_eq_not, Bool.not_true,
      decide_eq_false_iff_not]
    constructor
    · rintro ⟨r, ⟨hr, h62, h95⟩, rfl⟩
      exact ⟨h62, h95, r, hr, rfl⟩
    · rintro ⟨h62, h95, r, hr, rfl⟩
      exact ⟨r, ⟨hr, h62, h95⟩, rfl⟩
  refine ⟨hperm, ?_, ?_, ?_, hkeys, ?_, by decide⟩
  · rw [hshape]
    exact List.sorted_insertionSort yearLe _
  · intro c hc
    have hc' := hperm.mem_iff.mp hc
    obtain ⟨k, _, rfl⟩ := List.mem_map.mp hc'
    rfl
  · intro g
    rw [hperm.countP_eq, List.countP_map]
    have : ((allKeys df_tidy).countP fun k => decide (k = g)) =
        (allKeys df_tidy).count g := rfl
    rw [show ((fun c => decide (ckey c = g)) ∘ (fun k =>
        (⟨k.year, k.pm, k.party, df_tidy.countP fun r =>
          decide (tokKey r = k) && decide (r.word = pyLowerStr word)⟩ :
            CountRow))) = fun k => decide (k = g) from rfl, this]
    by_cases hg : g ∈ allKeys df_tidy
    · rw [if_pos hg]
      exact List.count_eq_one_of_mem (List.nodup_dedup _) hg
    · rw [if_neg hg]
      exact List.count_eq_zero_of_not_mem hg
  · simp only [count_specific_word, pyLowerStr_idem]

/-- Witness for C3 at a concrete table and target word. -/
theorem count_specific_word_spec_witness :
    List.Sorted yearLe (count_specific_word
      [⟨1947, "Nehru", "INC", "freedom"⟩, ⟨1948, "Nehru", "INC", "india"⟩]
      "freedom") ∧
    count_specific_word
        [⟨1947, "Nehru", "INC", "freedom"⟩, ⟨1948, "Nehru", "INC", "india"⟩]
        "freedom" =
      count_specific_word
        [⟨1947, "Nehru", "INC", "freedom"⟩, ⟨1948, "Nehru", "INC", "india"⟩]
        (pyLowerStr "freedom") :=
  ⟨(count_specific_word_spec
      [⟨1947, "Nehru", "INC", "freedom"⟩, ⟨1948, "Nehru", "INC", "india"⟩]
      "freedom").2.1,
   (count_specific_word_spec
      [⟨1947, "Nehru", "INC", "freedom"⟩, ⟨1948, "Nehru", "INC", "india"⟩]
      "freedom").2.2.2.2.2.1⟩

/-! ## Claims C1 and C9: TF-IDF

The two TF-IDF claims quantify over "tokenized input tables": tables whose
`word` column was produced by the tokenizer (or by the tokenizer followed
by stopword removal).  `WFTokens` captures that shape — every word is a
nonempty lowercase run of word characters — which is exactly the domain on
which the embedding of the vectorizer's re-tokenization of the joined
year-documents agrees with the source. -/

/-- A well-formed token: nonempty, only word characters, already
lowercase (fixed by `str.lower`). -/
def WFWord (w : String) : Prop :=
  w.toList ≠ [] ∧ ∀ c ∈ w.toList, isWordChar c = true ∧ pyLower c = c

instance (w : String) : Decidable (WFWord w) :=
  inferInstanceAs (Decidable (_ ∧ _))

/-- A tokenized table: every row's word is well-formed. -/
def WFTokens (df : List TokenRow) : Prop :=
  ∀ r ∈ df, WFWord r.word

instance (df : List TokenRow) : Decidable (WFTokens df) :=
  List.decidableBAll _ df

/-! ### Nonnegativity of the scores -/

theorem docFreq_le_nDocs (df : List TokenRow) (w : List Char) :
    docFreq df w ≤ nDocs df :=
  List.countP_le_length _

theorem one_le_idf (df : List TokenRow) (w : List Char) : 1 ≤ idf df w := by
  rw [idf]
  have h1 : (0 : ℝ) < 1 + (docFreq df w : ℝ) := by positivity
  have h2 : (1 : ℝ) ≤ (1 + (nDocs df : ℝ)) / (1 + (docFreq df w : ℝ)) := by
    rw [one_le_div h1]
    have h3 : (docFreq df w : ℝ) ≤ (nDocs df : ℝ) :=
      Nat.cast_le.mpr (docFreq_le_nDocs df w)
    linarith
  have := Real.log_nonneg h2
  linarith

theorem rawWeight_nonneg (df : List TokenRow) (y : Int) (w : List Char) :
    0 ≤ rawWeight df y w :=
  mul_nonneg (Nat.cast_nonneg _)
    (le_trans zero_le_one (one_le_idf df w))

theorem tfidfScore_nonneg (df : List TokenRow) (y : Int) (w : List Char) :
    0 ≤ tfidfScore df y w :=
  div_nonneg (rawWeight_nonneg df y w) (Real.sqrt_nonneg _)

/-! ### Structure of the `tfidf_df` table -/

/-- A positively scored (year, word) pair with the year among the
documents yields a row of `tfidf_df`. -/
theorem mem_tfidfScores_of (df : List TokenRow) (y : Int) (w : List Char)
    (hy : y ∈ years df) (hpos : 0 < tfidfScore df y w) :
    (⟨y, w, tfidfScore df y w⟩ : ScoreRow) ∈ tfidfScores df := by
  have hraw : rawWeight df y w ≠ 0 := by
    intro h0
    rw [tfidfScore, h0, zero_div] at hpos
    exact lt_irrefl 0 hpos
  have htf : tf df y w ≠ 0 := by
    intro h0
    apply hraw
    rw [rawWeight, h0]
    simp
  have hmem : w ∈ docTokens df y :=
    List.count_pos_iff.mp (Nat.pos_of_ne_zero htf)
  have hv : w ∈ vocab df :=
    List.mem_dedup.mpr (List.mem_flatMap.mpr ⟨y, hy, hmem⟩)
  rw [tfidfScores]
  refine List.mem_flatMap.mpr ⟨y, hy, ?_⟩
  refine List.mem_filterMap.mpr ⟨w, hv, ?_⟩
  rw [if_pos hpos]

/-- Every row of `tfidf_df` carries the score of its own (year, word)
pair, and that score is strictly positive. -/
theorem tfidfScores_field (df : List TokenRow) :
    ∀ s ∈ tfidfScores df,
      s.tf_idf = tfidfScore df s.year s.word ∧ 0 < s.tf_idf := by
  intro s hs
  rw [tfidfScores] at hs
  obtain ⟨y, _, hs⟩ := List.mem_flatMap.mp hs
  obtain ⟨w, _, hw⟩ := List.mem_filterMap.mp hs
  by_cases hpos : 0 < tfidfScore df y w
  · rw [if_pos hpos] at hw
    cases hw
    exact ⟨rfl, hpos⟩
  · rw [if_neg hpos] at hw
    cases hw

/-- Every element of year `y`'s block of `tfidf_df` (projected to its
(year, word) key) has first component `y`. -/
theorem tfidfScores_block_year (df : List TokenRow) (y : Int)
    (b : Int × List Char)
    (hb : b ∈ ((vocab df).filterMap fun w =>
      @ite _ (0 < tfidfScore df y w) (Classical.propDecidable _)
        (some (⟨y, w, tfidfScore df y w⟩ : ScoreRow)) none).map
      fun s => (s.year, s.word)) :
    b.1 = y := by
  obtain ⟨s, hs, rfl⟩ := List.mem_map.mp hb
  obtain ⟨w, _, hw⟩ := List.mem_filterMap.mp hs
  by_cases h : 0 < tfidfScore df y w
  · rw [if_pos h] at hw
    cases hw
    rfl
  · rw [if_neg h] at hw
    cases hw

/-- The (year, word) keys of `tfidf_df` are distinct: each year contributes
each vocabulary word at most once. -/
theorem tfidfScores_keys_nodup (df : List TokenRow) :
    ((tfidfScores df).map fun s => (s.year, s.word)).Nodup := by
  rw [tfidfScores, List.map_flatMap, List.nodup_flatMap]
  constructor
  · intro y _
    rw [List.map_filterMap]
    refine List.Nodup.filterMap ?_ (List.nodup_dedup _)
    intro w w' b hw hw'
    have hval : ∀ u : List Char,
        b ∈ Option.map (fun s : ScoreRow => (s.year, s.word))
          (@ite _ (0 < tfidfScore df y u) (Classical.propDecidable _)
            (some ⟨y, u, tfidfScore df y u⟩) none) → b = (y, u) := by
      intro u hb
      by_cases h : 0 < tfidfScore df y u
      · rw [if_pos h] at hb
        simpa [eq_comm] using hb
      · rw [if_neg h] at hb
        simp at hb
    have h1 := hval w hw
    have h2 := hval w' hw'
    exact (Prod.ext_iff.mp (h1.symm.trans h2)).2
  · refine List.Pairwise.imp ?_ (List.nodup_dedup _)
    intro y y' hne b hb hb'
    have h1 := tfidfScores_block_year df y b hb
    have h2 := tfidfScores_block_year df y' b hb'
    exact hne (h1 ▸ h2)

/-! ### The merge -/

theorem year_mem_of_mem_word_counts {df : List TokenRow} {c : WordCountRow}
    (hc : c ∈ word_counts df) : c.year ∈ years df := by
  simp only [word_counts, List.mem_map] at hc
  obtain ⟨r, hr, rfl⟩ := hc
  exact List.mem_dedup.mpr (List.mem_map_of_mem _ (List.mem_dedup.mp hr))

/-- At most one `tfidf_df` row matches a given token-count row. -/
theorem tfidfScores_filter_le_one (df : List TokenRow) (c : WordCountRow) :
    ((tfidfScores df).filter fun s =>
      decide (s.year = c.year ∧ s.word = c.word.toList)).length ≤ 1 :=
  length_filter_le_one_of_nodup _ (fun s => (s.year, s.word))
    (tfidfScores_keys_nodup df) _ (c.year, c.word.toList)
    (fun s hs => by
      have h := of_decide_eq_true hs
      rw [Prod.ext_iff]
      exact ⟨h.1, h.2⟩)

/-- The merged table is the token-count table with each row's score
attached; a row with no matching `tfidf_df` entry gets the fill value 0,
which coincides with its (zero) score. -/
theorem tfidfMerged_eq (df : List TokenRow) :
    tfidfMerged df = (word_counts df).map fun c =>
      ⟨c.year, c.pm, c.party, c.word, c.n,
        tfidfScore df c.year c.word.toList⟩ := by
  rw [tfidfMerged,
    leftJoin_eq_map _ _ _ _ (fun c _ => tfidfScores_filter_le_one df c)]
  refine List.map_congr_left fun c hc => ?_
  have hy : c.year ∈ years df := year_mem_of_mem_word_counts hc
  rcases hfind : (tfidfScores df).find? (fun s =>
      decide (s.year = c.year ∧ s.word = c.word.toList)) with _ | s
  · rw [hfind]
    rw [List.find?_eq_none] at hfind
    have hscore : tfidfScore df c.year c.word.toList = 0 := by
      by_contra h0
      have hpos : 0 < tfidfScore df c.year c.word.toList :=
        lt_of_le_of_ne (tfidfScore_nonneg _ _ _) (Ne.symm h0)
      exact hfind _ (mem_tfidfScores_of df c.year c.word.toList hy hpos)
        (by rw [decide_eq_true_eq]; exact ⟨rfl, rfl⟩)
    rw [hscore]
  · rw [hfind]
    have hs := List.mem_of_find?_eq_some hfind
    have hps := List.find?_some hfind
    rw [decide_eq_true_eq] at hps
    have hval : s.tf_idf = tfidfScore df c.year c.word.toList := by
      rw [(tfidfScores_field df s hs).1, hps.1, hps.2]
    rw [← hval]

/-- From a successful run, recover the sorted merged table. -/
theorem calculate_tf_idf_eq_result {df : List TokenRow}
    {out : List TfidfRow} (hout : calculate_tf_idf df = some out) :
    out = tfidfResult df := by
  rw [calculate_tf_idf] at hout
  by_cases h : tfidfOk df
  · rw [if_pos h] at hout
    exact (Option.some_injective _ hout).symm
  · rw [if_neg h] at hout
    cases hout

/-! ### Claim C1 -/

/-- C1: on a tokenized input table, when `calculate_tf_idf` returns, its
output is — as a multiset — the per-(year, pm, party, word) token-count
table with each row's (year, word) score attached; every token-count row
appears exactly once in the output; every output row has a nonnegative
score; a row whose (year, word) has no computed score in `tfidf_df` has
score 0; and the output is sorted by score descending. -/
theorem calculate_tf_idf_spec (df : List TokenRow) (out : List TfidfRow)
    (hwf : WFTokens df) (hout : calculate_tf_idf df = some out) :
    out.Perm ((word_counts df).map fun c =>
      ⟨c.year, c.pm, c.party, c.word, c.n,
        tfidfScore df c.year c.word.toList⟩) ∧
    (∀ r ∈ df, (out.countP fun t =>
      decide (t.year = r.year ∧ t.pm = r.pm ∧ t.party = r.party ∧
        t.word = r.word)) = 1) ∧
    (∀ t ∈ out, 0 ≤ t.tf_idf) ∧
    (∀ t ∈ out, (∀ s ∈ tfidfScores df,
      ¬(s.year = t.year ∧ s.word = t.word.toList)) → t.tf_idf = 0) ∧
    List.Sorted tfidfGe out := by
  clear hwf
  have hres := calculate_tf_idf_eq_result hout
  subst hres
  have hperm : (tfidfResult df).Perm ((word_counts df).map fun c =>
      (⟨c.year, c.pm, c.party, c.word, c.n,
        tfidfScore df c.year c.word.toList⟩ : TfidfRow)) := by
    rw [tfidfResult, tfidfMerged_eq]
    exact List.perm_insertionSort tfidfGe _
  refine ⟨hperm, ?_, ?_, ?_, ?_⟩
  · intro r hr
    rw [hperm.countP_eq, List.countP_map, word_counts, List.countP_map]
    have hcongr : ((df.dedup).countP fun r' => decide (r' = r)) = 1 := by
      have : ((df.dedup).countP fun r' => decide (r' = r)) =
          df.dedup.count r := by
        rw [List.count_eq_countP]
        refine List.countP_congr fun r' _ => ?_
        simp [beq_iff_eq]
      rw [this]
      exact List.count_eq_one_of_mem (List.nodup_dedup df)
        (List.mem_dedup.mpr hr)
    rw [← hcongr]
    refine List.countP_congr fun r' _ => ?_
    show decide (r'.year = r.year ∧ r'.pm = r.pm ∧ r'.party = r.party ∧
      r'.word = r.word) = true ↔ decide (r' = r) = true
    rw [decide_eq_true_eq, decide_eq_true_eq]
    cases r'
    cases r
    rw [TokenRow.mk.injEq]
  · intro t ht
    obtain ⟨c, _, rfl⟩ := List.mem_map.mp (hperm.mem_iff.mp ht)
    exact tfidfScore_nonneg df c.year c.word.toList
  · intro t ht hnone
    obtain ⟨c, hc, rfl⟩ := List.mem_map.mp (hperm.mem_iff.mp ht)
    by_contra h0
    have hpos : 0 < tfidfScore df c.year c.word.toList :=
      lt_of_le_of_ne (tfidfScore_nonneg _ _ _) (Ne.symm h0)
    exact hnone _ (mem_tfidfScores_of df c.year c.word.toList
        (year_mem_of_mem_word_counts hc) hpos) ⟨rfl, rfl⟩
  · rw [tfidfResult]
    exact List.sorted_insertionSort tfidfGe _

/-- Witness for C1 at a concrete two-year tokenized table. -/
theorem calculate_tf_idf_spec_witness :
    WFTokens [⟨1947, "nehru", "inc", "freedom"⟩,
      ⟨1948, "nehru", "inc", "india"⟩] ∧
    calculate_tf_idf [⟨1947, "nehru", "inc", "freedom"⟩,
        ⟨1948, "nehru", "inc", "india"⟩] =
      some (tfidfResult [⟨1947, "nehru", "inc", "freedom"⟩,
        ⟨1948, "nehru", "inc", "india"⟩]) ∧
    List.Sorted tfidfGe (tfidfResult [⟨1947, "nehru", "inc", "freedom"⟩,
      ⟨1948, "nehru", "inc", "india"⟩]) ∧
    (∀ t ∈ tfidfResult [⟨1947, "nehru", "inc", "freedom"⟩,
      ⟨1948, "nehru", "inc", "india"⟩], 0 ≤ t.tf_idf) := by
  have heq : calculate_tf_idf [⟨1947, "nehru", "inc", "freedom"⟩,
      ⟨1948, "nehru", "inc", "india"⟩] =
      some (tfidfResult [⟨1947, "nehru", "inc", "freedom"⟩,
        ⟨1948, "nehru", "inc", "india"⟩]) := by
    rw [calculate_tf_idf, if_pos (by decide)]
  have h := calculate_tf_idf_spec
    [⟨1947, "nehru", "inc", "freedom"⟩, ⟨1948, "nehru", "inc", "india"⟩]
    (tfidfResult [⟨1947, "nehru", "inc", "freedom"⟩,
      ⟨1948, "nehru", "inc", "india"⟩]) (by decide) heq
  exact ⟨by decide, heq, h.2.2.2.2, h.2.2.1⟩

/-! ### Claim C9

`fit_transform` raises iff the vocabulary is empty.  On a well-formed
tokenized table the vectorizer's re-tokenization of a joined year-document
recovers exactly that year's words (shown below), so the vocabulary is
nonempty iff some token has length at least 2 — the default
`token_pattern` drops single-character tokens.  Hence a single-year input
need not return: one whose tokens are all single characters raises. -/

/-- Scanning a block of word characters pushes it all into the
accumulator. -/
theorem wordsAux_append_wordChars (l : List Char)
    (hl : ∀ c ∈ l, isWordChar c = true) (acc rest : List Char) :
    wordsAux acc (l ++ rest) = wordsAux (l.reverse ++ acc) rest := by
  induction l generalizing acc with
  | nil => simp
  | cons c cs ih =>
    have hc : isWordChar c = true := hl c (List.mem_cons_self c cs)
    rw [List.cons_append, wordsAux, if_pos hc,
      ih (fun x hx => hl x (List.mem_cons_of_mem c hx)) (c :: acc),
      List.reverse_cons, List.append_assoc, List.singleton_append]

/-- Every character of a joined word list is a character of one of the
words or the joining space. -/
theorem mem_joinChars {ws : List (List Char)} {c : Char}
    (hc : c ∈ joinChars ws) : (∃ w ∈ ws, c ∈ w) ∨ c = ' ' := by
  induction ws with
  | nil => simp [joinChars] at hc
  | cons w rest ih =>
    cases rest with
    | nil =>
      exact Or.inl ⟨w, List.mem_cons_self w [], by simpa [joinChars] using hc⟩
    | cons w2 rest2 =>
      rw [show joinChars (w :: w2 :: rest2) =
        w ++ ' ' :: joinChars (w2 :: rest2) from rfl] at hc
      rcases List.mem_append.mp hc with h | h
      · exact Or.inl ⟨w, List.mem_cons_self w _, h⟩
      · rcases List.mem_cons.mp h with h | h
        · exact Or.inr h
        · rcases ih h with ⟨w', hw', hcw'⟩ | h'
          · exact Or.inl ⟨w', List.mem_cons_of_mem _ hw', hcw'⟩
          · exact Or.inr h'

/-- Tokenizing a space-joined list of nonempty all-word-character words
recovers exactly the words: the join-then-retokenize round trip of the
vectorizer is the identity on well-formed token lists. -/
theorem pyWords_joinChars (ws : List (List Char))
    (h : ∀ w ∈ ws, w ≠ [] ∧ ∀ c ∈ w, isWordChar c = true) :
    pyWords (joinChars ws) = ws := by
  induction ws with
  | nil => rfl
  | cons w rest ih =>
    obtain ⟨hne, hwc⟩ := h w (List.mem_cons_self w rest)
    cases rest with
    | nil =>
      show wordsAux [] (joinChars [w]) = [w]
      have h1 := wordsAux_append_wordChars w hwc [] []
      rw [List.append_nil, List.append_nil] at h1
      rw [show joinChars [w] = w from rfl, h1, wordsAux,
        if_neg (by simpa using hne), List.reverse_reverse]
    | cons w2 rest2 =>
      show wordsAux [] (joinChars (w :: w2 :: rest2)) = w :: w2 :: rest2
      rw [show joinChars (w :: w2 :: rest2) =
          w ++ ' ' :: joinChars (w2 :: rest2) from rfl,
        wordsAux_append_wordChars w hwc [] _, List.append_nil, wordsAux,
        if_neg (by decide), if_neg (by simpa using hne),
        List.reverse_reverse]
      exact congrArg _ (ih fun u hu => h u (List.mem_cons_of_mem w hu))

/-- On a well-formed tokenized table, the vectorizer's token stream for
year `y` is exactly that year's words of length at least 2. -/
theorem docTokens_eq_of_wf (df : List TokenRow) (hwf : WFTokens df)
    (y : Int) :
    docTokens df y =
      (yearWordLists df y).filter fun w => decide (2 ≤ w.length) := by
  have hws : ∀ w ∈ yearWordLists df y,
      w ≠ [] ∧ ∀ c ∈ w, isWordChar c = true := by
    intro w hw
    simp only [yearWordLists, List.mem_map] at hw
    obtain ⟨r, hr, rfl⟩ := hw
    have h := hwf r (List.mem_filter.mp hr).1
    exact ⟨h.1, fun c hc => (h.2 c hc).1⟩
  have hlower : (docChars df y).map pyLower = docChars df y := by
    refine (List.map_congr_left fun c hc => ?_).trans (List.map_id _)
    rcases mem_joinChars hc with ⟨w, hw, hcw⟩ | rfl
    · simp only [yearWordLists, List.mem_map] at hw
      obtain ⟨r, hr, rfl⟩ := hw
      exact (hwf r (List.mem_filter.mp hr).1).2 c hcw |>.2
    · decide
  rw [docTokens, hlower, docChars, pyWords_joinChars _ hws]

/-- Counterexample to C9 as stated: a tokenized single-year input whose
only token is the single character `a` (the tokenizer produces such
tables, e.g. from the text `"a"`) makes `calculate_tf_idf` raise
`ValueError: empty vocabulary`, because the vectorizer's default token
pattern requires tokens of length at least 2. -/
theorem calculate_tf_idf_single_year_raises :
    calculate_tf_idf [⟨1947, "Nehru", "INC", "a"⟩] = none := by
  rw [calculate_tf_idf, if_neg (by decide)]

/-- C9 (amended): a tokenized input whose tokens all belong to a single
year returns a result without raising, provided at least one token has
length at least 2 (so that the vectorizer's vocabulary is nonempty). -/
theorem calculate_tf_idf_single_year_ok (df : List TokenRow) (y : Int)
    (hwf : WFTokens df) (hy : ∀ r ∈ df, r.year = y)
    (hw : ∃ r ∈ df, 2 ≤ r.word.toList.length) :
    (calculate_tf_idf df).isSome := by
  clear hy
  obtain ⟨r, hr, hlen⟩ := hw
  have hryear : r.year ∈ years df :=
    List.mem_dedup.mpr (List.mem_map_of_mem _ hr)
  have hmem : r.word.toList ∈ docTokens df r.year := by
    rw [docTokens_eq_of_wf df hwf]
    refine List.mem_filter.mpr ⟨?_, by rw [decide_eq_true_eq]; exact hlen⟩
    exact List.mem_map_of_mem _
      (List.mem_filter.mpr ⟨hr, by rw [decide_eq_true_eq]⟩)
  have hok : tfidfOk df := by
    intro hnil
    have hv : r.word.toList ∈ vocab df :=
      List.mem_dedup.mpr (List.mem_flatMap.mpr ⟨r.year, hryear, hmem⟩)
    rw [hnil] at hv
    exact List.not_mem_nil _ hv
  rw [calculate_tf_idf, if_pos hok]
  rfl

/-- Witness for C9 at a concrete single-year table with one length-7
token. -/
theorem calculate_tf_idf_single_year_ok_witness :
    (calculate_tf_idf [⟨1947, "nehru", "inc", "freedom"⟩]).isSome :=
  calculate_tf_idf_single_year_ok [⟨1947, "nehru", "inc", "freedom"⟩] 1947
    (by decide) (by decide) (by decide)

end Aug15
